import Mathlib

/-!
# Verification of the personal-finance tracker core

Shallow embedding of the aggregation-and-CRUD core of the personal
finance tracker (`src/Dashboard.tsx`, with the mock-API variant in
`src/Stage2.tsx`).  Amounts are modelled as rationals, dates as
year/month/day triples ordered the way `Date.getTime()` orders valid
calendar dates, and JavaScript's stable `Array.prototype.sort` as an
insertion sort (any stable sort computes the same list).  The
transaction form's amount field carries the result of `Number(...)`
(`JSNum`: `NaN`, positive or negative `Infinity`, or a finite value
abstracted to a rational); the budget form's amount is abstracted to
`Option ℚ` (`none` = the field is empty or `Number(...)` yields
`NaN`, both rejected by the same validation branch).
-/

/-- Rounding to 2 decimal places, the model of
`parseFloat(x.toFixed(2))` on the rational value: round the number of
cents to the nearest integer. -/
def round2 (q : ℚ) : ℚ := ((q * 100 + 1 / 2).floor : ℚ) / 100

/-- A rational that is a whole number of cents. -/
def Cents (q : ℚ) : Prop := ∃ k : ℤ, q = (k : ℚ) / 100

/-- Calendar date, no time of day (`src/Dashboard.tsx` stores `Date`
values produced by the date picker). -/
structure SDate where
  year : ℕ
  month : ℕ
  day : ℕ
deriving DecidableEq, Repr

/-- `a.getTime() <= b.getTime()` for valid calendar dates:
lexicographic comparison of (year, month, day). -/
def dateLe (a b : SDate) : Bool :=
  decide (a.year < b.year ∨ (a.year = b.year ∧
    (a.month < b.month ∨ (a.month = b.month ∧ a.day ≤ b.day))))

/-- The decimal digits of `n`, zero-padded to width `k`, most
significant first. -/
def padDigits : ℕ → ℕ → List ℕ
  | 0, _ => []
  | k + 1, n => padDigits k (n / 10) ++ [n % 10]

/-- The character for one decimal digit. -/
def digitChar (d : ℕ) : Char := Char.ofNat (48 + d)

/-- `n` printed in decimal, zero-padded to width `k` (the `yyyy`,
`MM`, `dd` fields of `format`). -/
def padStr (k n : ℕ) : String := String.mk ((padDigits k n).map digitChar)

/-- `format(date, 'yyyy-MM')`, the month key of `monthlyExpenses`. -/
def ymKey (d : SDate) : String := padStr 4 d.year ++ "-" ++ padStr 2 d.month

/-- `format(date, 'yyyy-MM-dd')`: the ISO-8601 date string used when a
`Date` is serialized. -/
def isoDate (d : SDate) : String :=
  padStr 4 d.year ++ "-" ++ padStr 2 d.month ++ "-" ++ padStr 2 d.day

/-- A transaction (`interface Transaction` in `src/Dashboard.tsx`).
The opaque UUID id is modelled as a natural number. -/
structure Transaction where
  id : ℕ
  date : SDate
  category : String
  description : String
  amount : ℚ
deriving DecidableEq, Repr

/-- A per-category budget (`interface Budget`). -/
structure Budget where
  category : String
  amount : ℚ
deriving DecidableEq, Repr

/-! ## Aggregator functions -/

/-- `totalExpenses`: `transactions.reduce((acc, t) => acc + t.amount, 0)`
followed by `.toFixed(2)`. -/
def totalExpenses (ts : List Transaction) : ℚ :=
  round2 (ts.foldl (fun acc t => acc + t.amount) 0)

/-- `obj[key] = (obj[key] || 0) + a` on a JavaScript object whose keys
enumerate in insertion order, modelled as an association list:
accumulate into the first entry with the key, or append a new entry. -/
def bump (l : List (String × ℚ)) (k : String) (a : ℚ) : List (String × ℚ) :=
  match l with
  | [] => [(k, a)]
  | (k', v) :: rest => if k' = k then (k', v + a) :: rest else (k', v) :: bump rest k a

/-- The `categoryTotals` object of `categoryExpenses`, before rounding. -/
def categoryTotals (ts : List Transaction) : List (String × ℚ) :=
  ts.foldl (fun acc t => bump acc t.category t.amount) []

/-- `categoryExpenses` (= `categoryBreakdown`): per-category sums,
each rounded to 2 decimal places, in insertion order. -/
def categoryExpenses (ts : List Transaction) : List (String × ℚ) :=
  (categoryTotals ts).map (fun p => (p.1, round2 p.2))

/-- The `monthlyTotals` object of `monthlyExpenses`, before rounding. -/
def monthlyTotals (ts : List Transaction) : List (String × ℚ) :=
  ts.foldl (fun acc t => bump acc (ymKey t.date) t.amount) []

/-- `monthlyExpenses`: per-month (`yyyy-MM`) sums, each rounded to
2 decimal places, in insertion order. -/
def monthlyExpenses (ts : List Transaction) : List (String × ℚ) :=
  (monthlyTotals ts).map (fun p => (p.1, round2 p.2))

/-- Insert a transaction into a list sorted by date descending,
before the first element whose date is not later: the step of a
stable descending sort. -/
def insertDesc (x : Transaction) : List Transaction → List Transaction
  | [] => [x]
  | y :: l => if dateLe y.date x.date then x :: y :: l else y :: insertDesc x l

/-- `[...transactions].sort((a, b) => b.date.getTime() - a.date.getTime())`:
JavaScript sort is stable (ES2019), so any stable descending-by-date
sort computes it; we use insertion sort. -/
def sortDesc : List Transaction → List Transaction
  | [] => []
  | x :: l => insertDesc x (sortDesc l)

/-- `recent(transactions, n)`: the sorted-descending list truncated to
`n` entries.  The source hardcodes `n = 5` (`.slice(0, 5)`). -/
def recentN (ts : List Transaction) (n : ℕ) : List Transaction :=
  (sortDesc ts).take n

/-- `recentTransactions` of `src/Dashboard.tsx`. -/
def recentTransactions (ts : List Transaction) : List Transaction :=
  recentN ts 5

/-- One row of the `budgetComparison` result. -/
structure CompRow where
  category : String
  budgeted : ℚ
  actual : ℚ
deriving DecidableEq, Repr

/-- The transaction loop body of `budgetComparison`:
`comparison.find(item => item.category === c)` and add to its
`actual`, else `push({category: c, budgeted: 0, actual: a})`. -/
def addActual (rows : List CompRow) (c : String) (a : ℚ) : List CompRow :=
  match rows with
  | [] => [⟨c, 0, a⟩]
  | r :: rest =>
    if r.category = c then { r with actual := r.actual + a } :: rest
    else r :: addActual rest c a

/-- `budgetComparison(transactions, budgets)` of `src/Dashboard.tsx`:
one row per budget (actual starts at 0), transactions accumulated into
the first matching row or pushed as new rows, then every `actual`
rounded to 2 decimal places. -/
def budgetComparison (ts : List Transaction) (bs : List Budget) : List CompRow :=
  let init := bs.map (fun b => CompRow.mk b.category b.amount 0)
  let rows := ts.foldl (fun rows t => addActual rows t.category t.amount) init
  rows.map (fun r => { r with actual := round2 r.actual })

/-! ## Transaction store -/

/-- The spec's error taxonomy (§7). -/
inductive StoreError where
  | validationError
  | notFoundError
deriving DecidableEq, Repr

/-- The result of `Number(s)` on a non-empty string: `NaN` for
non-numeric input, positive or negative `Infinity` for inputs such as
`"Infinity"` or overflowing literals like `"1e999"`, or a finite
value (abstracted to a rational). -/
inductive JSNum where
  | nan
  | posInf
  | negInf
  | finite : ℚ → JSNum
deriving DecidableEq, Repr

/-- Whether a `Number(...)` parse result is a finite number. -/
def JSNum.isFinite : JSNum → Bool
  | .finite _ => true
  | _ => false

/-- The add-transaction form state.  The text fields are strings
(empty = missing); the date is `undefined` or a picked date; the
amount field carries the result of `Number(formAmount)`
(`none` = the field is empty, caught by the `!formAmount` check). -/
structure TxForm where
  formDate : Option SDate
  formCategory : String
  formDescription : String
  formAmount : Option JSNum
deriving DecidableEq, Repr

/-- A transaction as the store appends it: the amount field holds
whatever `Number(formAmount)` produced, finite or not — the source
performs no finiteness check before storing. -/
structure StoredTransaction where
  id : ℕ
  date : SDate
  category : String
  description : String
  amount : JSNum
deriving DecidableEq, Repr

/-- Transaction store state: the collection plus the fresh-id source
(modelling `crypto.randomUUID()` by a counter). -/
structure TxStore where
  transactions : List StoredTransaction
  nextId : ℕ
deriving DecidableEq, Repr

/-- `handleAddTransaction` with `editingTransactionId === null`
(Dashboard.tsx:340-369): validation rejects a missing date, empty
category or description, an empty amount field, and
`isNaN(Number(formAmount))` — and nothing else; in particular a
non-finite parse such as `Infinity` passes.  On success a new
transaction with a fresh id is appended; on failure the error is
reported and nothing changes. -/
def createTransaction (s : TxStore) (f : TxForm) :
    Except StoreError (TxStore × StoredTransaction) :=
  match f.formDate, f.formAmount with
  | some d, some a =>
    if f.formCategory = "" ∨ f.formDescription = "" ∨ a = JSNum.nan then
      .error .validationError
    else
      let t : StoredTransaction := ⟨s.nextId, d, f.formCategory, f.formDescription, a⟩
      .ok (⟨s.transactions ++ [t], s.nextId + 1⟩, t)
  | _, _ => .error .validationError

/-- A partial update (`Partial<Omit<Transaction, "id">>`): each field
optionally replaced, the id never. -/
structure TxUpdates where
  date : Option SDate
  category : Option String
  description : Option String
  amount : Option ℚ
deriving DecidableEq, Repr

/-- `{...transactions[index], ...updates}`: spread-merge of an update
onto a transaction; the id is preserved. -/
def applyUpdates (t : Transaction) (u : TxUpdates) : Transaction :=
  { id := t.id
    date := u.date.getD t.date
    category := u.category.getD t.category
    description := u.description.getD t.description
    amount := u.amount.getD t.amount }

/-- `mockApi.updateTransaction` of `src/Stage2.tsx`: find the index of
the first transaction with the id; `null` (here `none`) if absent,
else replace that entry by the merge and return the new list and
record. -/
def updateTransaction (ts : List Transaction) (i : ℕ) (u : TxUpdates) :
    Option (List Transaction × Transaction) :=
  match ts with
  | [] => none
  | t :: rest =>
    if t.id = i then some (applyUpdates t u :: rest, applyUpdates t u)
    else
      match updateTransaction rest i u with
      | none => none
      | some (rest', t') => some (t :: rest', t')

/-- The collection after an update attempt: on `NotFoundError` the
store is left as it was. -/
def listAfterUpdate (ts : List Transaction) (i : ℕ) (u : TxUpdates) :
    List Transaction :=
  match updateTransaction ts i u with
  | none => ts
  | some (ts', _) => ts'

/-- `handleDeleteTransaction` / `mockApi.deleteTransaction`:
`transactions.filter(t => t.id !== id)`. -/
def deleteTransaction (ts : List Transaction) (i : ℕ) : List Transaction :=
  ts.filter (fun t => t.id ≠ i)

/-! ## Budget store -/

/-- `handleAddBudget` of `src/Dashboard.tsx`: validate category and
amount (the amount field abstracted to its parse result); when
`editingBudgetId` is set, map-replace the budget whose category equals
it; otherwise upsert by the chosen category.  `none` = validation
failure, state unchanged. -/
def handleAddBudget (budgets : List Budget) (editingBudgetId : Option String)
    (budgetCategory : String) (budgetAmount : Option ℚ) : Option (List Budget) :=
  match budgetAmount with
  | none => none
  | some a =>
    if budgetCategory = "" ∨ a ≤ 0 then none
    else
      let newBudget : Budget := ⟨budgetCategory, a⟩
      match editingBudgetId with
      | some eid => some (budgets.map fun b => if b.category = eid then newBudget else b)
      | none =>
        if budgets.any (fun b => b.category = budgetCategory) then
          some (budgets.map fun b => if b.category = budgetCategory then newBudget else b)
        else
          some (budgets ++ [newBudget])

/-- `handleDeleteBudget`: `budgets.filter(b => b.category !== category)`. -/
def handleDeleteBudget (budgets : List Budget) (category : String) : List Budget :=
  budgets.filter (fun b => b.category ≠ category)

/-! ## Persistence (`JSON.stringify` / `JSON.parse` with date reviver) -/

/-- A JSON value (the fragment the persisted documents use). -/
inductive JVal where
  | str : String → JVal
  | num : ℚ → JVal
  | arr : List JVal → JVal
  | obj : List (String × JVal) → JVal

/-- A rational that is a JSON-encoded natural number, back to `ℕ`. -/
def qToNat (q : ℚ) : Option ℕ :=
  if q.den = 1 ∧ 0 ≤ q.num then some q.num.toNat else none

/-- One character back to a decimal digit. -/
def charToDigit (c : Char) : Option ℕ :=
  if 48 ≤ c.toNat ∧ c.toNat ≤ 57 then some (c.toNat - 48) else none

/-- A run of characters back to decimal digits; `none` if any is not
a digit. -/
def charsToDigits : List Char → Option (List ℕ)
  | [] => some []
  | c :: cs =>
    match charToDigit c, charsToDigits cs with
    | some d, some ds => some (d :: ds)
    | _, _ => none

/-- Digits (most significant first) to the number they denote. -/
def digitsVal (ds : List ℕ) : ℕ := ds.foldl (fun a d => 10 * a + d) 0

/-- A fixed-width decimal field back to a number. -/
def parseField (cs : List Char) : Option ℕ :=
  match charsToDigits cs with
  | some ds => some (digitsVal ds)
  | none => none

/-- `new Date(value)` on an ISO-8601 `yyyy-MM-dd` string: the reviver
applied to the serialized `date` field. -/
def parseIsoDate (s : String) : Option SDate :=
  match s.toList with
  | [y1, y2, y3, y4, c1, m1, m2, c2, d1, d2] =>
    if c1 = '-' ∧ c2 = '-' then
      match parseField [y1, y2, y3, y4], parseField [m1, m2], parseField [d1, d2] with
      | some y, some m, some d => some ⟨y, m, d⟩
      | _, _, _ => none
    else none
  | _ => none

/-- `JSON.stringify` on one transaction: dates serialize as ISO-8601
strings, every other field as its own JSON type. -/
def serializeTransaction (t : Transaction) : JVal :=
  .obj [("id", .num t.id), ("date", .str (isoDate t.date)),
        ("category", .str t.category), ("description", .str t.description),
        ("amount", .num t.amount)]

/-- `JSON.stringify(transactions)`: the whole collection as one JSON
array. -/
def serializeAll (ts : List Transaction) : JVal :=
  .arr (ts.map serializeTransaction)

/-- `JSON.parse` of one transaction object with the field-aware
reviver `(key, value) => key === 'date' ? new Date(value) : value`:
only the value under the `date` key is date-parsed; `category` and
`description` stay strings even when date-like. -/
def reviveTransaction (v : JVal) : Option Transaction :=
  match v with
  | .obj [("id", .num i), ("date", .str ds), ("category", .str c),
          ("description", .str de), ("amount", .num a)] =>
    match qToNat i, parseIsoDate ds with
    | some n, some d => some ⟨n, d, c, de, a⟩
    | _, _ => none
  | _ => none

/-- The elements of a JSON array revived in order; `none` if any
fails. -/
def reviveList : List JVal → Option (List Transaction)
  | [] => some []
  | v :: vs =>
    match reviveTransaction v, reviveList vs with
    | some t, some ts => some (t :: ts)
    | _, _ => none

/-- `JSON.parse(saved, reviver)` on a serialized collection. -/
def reviveAll (v : JVal) : Option (List Transaction) :=
  match v with
  | .arr vs => reviveList vs
  | _ => none

/-- A date whose fields fit the fixed-width `yyyy-MM-dd` rendering. -/
def ValidDate (d : SDate) : Prop :=
  d.year < 10000 ∧ d.month < 100 ∧ d.day < 100

/-! ## Specification-side helpers -/

/-- The exact (unrounded) sum of the amounts of the transactions in
one category. -/
def catSum (ts : List Transaction) (c : String) : ℚ :=
  ((ts.filter (fun t => t.category = c)).map Transaction.amount).sum

/-- The budget amount for a category, or 0 when the category has no
budget. -/
def budgetLookup (bs : List Budget) (c : String) : ℚ :=
  match bs.find? (fun b => b.category = c) with
  | some b => b.amount
  | none => 0

/-- The first comparison row carrying a category. -/
def rowLookup (rows : List CompRow) (c : String) : Option CompRow :=
  rows.find? (fun r => r.category = c)

/-- First occurrences of the elements of the second list that are not
in `seen`, in order. -/
def dedupFirstAux (seen : List String) : List String → List String
  | [] => []
  | c :: cs =>
    if c ∈ seen then dedupFirstAux seen cs
    else c :: dedupFirstAux (c :: seen) cs

/-! ## Shared lemmas -/

theorem rat_floor_eq_floor (a : ℚ) : a.floor = ⌊a⌋ := by
  rw [Rat.floor_def', Rat.floor_def]

theorem round2_int_div (k : ℤ) : round2 ((k : ℚ) / 100) = (k : ℚ) / 100 := by
  have h : ((k : ℚ) / 100) * 100 = (k : ℚ) := by field_simp
  rw [round2, h, rat_floor_eq_floor]
  have h2 : ((k : ℚ) + 1 / 2) = (k : ℚ) + 1 / 2 := rfl
  have h3 : ⌊(k : ℚ) + 1 / 2⌋ = k := by
    rw [add_comm, Int.floor_add_int]
    norm_num
  rw [h3]

theorem round2_cents {q : ℚ} (h : Cents q) : round2 q = q := by
  obtain ⟨k, rfl⟩ := h
  exact round2_int_div k

theorem cents_zero : Cents 0 := ⟨0, by norm_num⟩

theorem cents_add {a b : ℚ} (ha : Cents a) (hb : Cents b) : Cents (a + b) := by
  obtain ⟨j, rfl⟩ := ha
  obtain ⟨k, rfl⟩ := hb
  exact ⟨j + k, by push_cast; ring⟩

theorem foldl_add_amount (ts : List Transaction) (q : ℚ) :
    ts.foldl (fun acc t => acc + t.amount) q = q + (ts.map Transaction.amount).sum := by
  induction ts generalizing q with
  | nil => simp
  | cons t ts ih => simp [ih, add_assoc]

/-! ## C8: the worked scenario -/

/-- C8: for the transactions {Food, 2024-01-10, "Groceries", 50},
{Transportation, 2024-01-15, "Gas", 25}, {Food, 2024-02-01, "Dinner", 100}:
`totalExpense` is 175.00, `byMonth` maps 2024-01 to 75.00 and 2024-02
to 100.00 (keys derived as yyyy-MM from the dates), and `recent(2)`
returns the Dinner then the Gas transaction, in that order. -/
theorem scenario_aggregates :
    totalExpenses
        [⟨0, ⟨2024, 1, 10⟩, "Food", "Groceries", 50⟩,
         ⟨1, ⟨2024, 1, 15⟩, "Transportation", "Gas", 25⟩,
         ⟨2, ⟨2024, 2, 1⟩, "Food", "Dinner", 100⟩] = 175 ∧
    monthlyExpenses
        [⟨0, ⟨2024, 1, 10⟩, "Food", "Groceries", 50⟩,
         ⟨1, ⟨2024, 1, 15⟩, "Transportation", "Gas", 25⟩,
         ⟨2, ⟨2024, 2, 1⟩, "Food", "Dinner", 100⟩] =
      [("2024-01", 75), ("2024-02", 100)] ∧
    recentN
        [⟨0, ⟨2024, 1, 10⟩, "Food", "Groceries", 50⟩,
         ⟨1, ⟨2024, 1, 15⟩, "Transportation", "Gas", 25⟩,
         ⟨2, ⟨2024, 2, 1⟩, "Food", "Dinner", 100⟩] 2 =
      [⟨2, ⟨2024, 2, 1⟩, "Food", "Dinner", 100⟩,
       ⟨1, ⟨2024, 1, 15⟩, "Transportation", "Gas", 25⟩] := by
  have h1 : ymKey ⟨2024, 1, 10⟩ = "2024-01" := by decide
  have h2 : ymKey ⟨2024, 1, 15⟩ = "2024-01" := by decide
  have h3 : ymKey ⟨2024, 2, 1⟩ = "2024-02" := by decide
  refine ⟨?_, ?_, ?_⟩
  · norm_num [totalExpenses, round2, rat_floor_eq_floor]
  · have h4 : ("2024-01" : String) ≠ "2024-02" := by decide
    norm_num [monthlyExpenses, monthlyTotals, List.foldl, h1, h2, h3, h4, bump,
      round2, rat_floor_eq_floor]
  · norm_num [recentN, sortDesc, insertDesc, dateLe]

/-! ## C9: delete is idempotent -/

/-- C9: `delete(id)` removes every entry with that id, leaves the
collection unchanged when the id is absent (no error), and applying it
twice gives the same end state as applying it once. -/
theorem delete_idempotent_spec (ts : List Transaction) (i : ℕ) :
    deleteTransaction (deleteTransaction ts i) i = deleteTransaction ts i ∧
    (∀ t ∈ deleteTransaction ts i, t.id ≠ i) ∧
    ((∀ t ∈ ts, t.id ≠ i) → deleteTransaction ts i = ts) := by
  refine ⟨?_, ?_, ?_⟩
  · simp [deleteTransaction, List.filter_filter]
  · intro t ht
    have := (List.mem_filter.mp ht).2
    simpa using this
  · intro h
    apply List.filter_eq_self.mpr
    intro t ht
    simpa using h t ht

/-- Witness for C9 at a concrete input: deleting an absent id leaves
the one-element collection unchanged. -/
theorem delete_idempotent_spec_witness :
    deleteTransaction [⟨0, ⟨2024, 1, 1⟩, "Food", "x", 5⟩] 1 =
      [⟨0, ⟨2024, 1, 1⟩, "Food", "x", 5⟩] :=
  (delete_idempotent_spec [⟨0, ⟨2024, 1, 1⟩, "Food", "x", 5⟩] 1).2.2 (by decide)

/-! ## C4: the budget-category invariant under edits -/

/-- C4 (code bug evidence): editing the Food budget while changing its
category to Transportation, with a Transportation budget already
present, yields a collection with two Transportation entries — the
edit path of `handleAddBudget` map-replaces by the old category
without checking the new category for collisions, violating the
spec's no-duplicate-category invariant. -/
theorem budget_edit_duplicates_categories :
    handleAddBudget [⟨"Food", 100⟩, ⟨"Transportation", 50⟩]
        (some "Food") "Transportation" (some 75) =
      some [⟨"Transportation", 75⟩, ⟨"Transportation", 50⟩] ∧
    ¬ (([⟨"Transportation", (75 : ℚ)⟩, ⟨"Transportation", 50⟩] :
        List Budget).map Budget.category).Nodup := by
  constructor
  · norm_num [handleAddBudget]
    exact ⟨by decide, by decide⟩
  · simp

/-! ## C6: total vs per-category breakdown -/

theorem map_snd_sum_bump (l : List (String × ℚ)) (k : String) (a : ℚ) :
    ((bump l k a).map Prod.snd).sum = (l.map Prod.snd).sum + a := by
  induction l with
  | nil => simp [bump]
  | cons p rest ih =>
    obtain ⟨k', v⟩ := p
    by_cases h : k' = k
    · simp [bump, h]
      ring
    · simp [bump, h, ih]
      ring

theorem mem_bump_cents (l : List (String × ℚ)) (k : String) (a : ℚ)
    (hl : ∀ p ∈ l, Cents p.2) (ha : Cents a) : ∀ p ∈ bump l k a, Cents p.2 := by
  induction l with
  | nil =>
    intro p hp
    simp [bump] at hp
    subst hp
    exact ha
  | cons q rest ih =>
    obtain ⟨k', v⟩ := q
    intro p hp
    by_cases h : k' = k
    · simp [bump, h] at hp
      rcases hp with rfl | hp
      · exact cents_add (hl (k', v) (by simp)) ha
      · exact hl p (by simp [hp])
    · simp [bump, h] at hp
      rcases hp with rfl | hp
      · exact hl (k', v) (by simp)
      · exact ih (fun q hq => hl q (by simp [hq])) p hp

theorem categoryTotals_foldl_sum (ts : List Transaction) (acc : List (String × ℚ)) :
    ((ts.foldl (fun acc t => bump acc t.category t.amount) acc).map Prod.snd).sum =
      (acc.map Prod.snd).sum + (ts.map Transaction.amount).sum := by
  induction ts generalizing acc with
  | nil => simp
  | cons t ts ih =>
    simp only [List.foldl_cons, List.map_cons, List.sum_cons]
    rw [ih, map_snd_sum_bump]
    ring

theorem categoryTotals_foldl_cents (ts : List Transaction) (acc : List (String × ℚ))
    (hacc : ∀ p ∈ acc, Cents p.2) (hts : ∀ t ∈ ts, Cents t.amount) :
    ∀ p ∈ ts.foldl (fun acc t => bump acc t.category t.amount) acc, Cents p.2 := by
  induction ts generalizing acc with
  | nil => exact hacc
  | cons t ts ih =>
    simp only [List.foldl_cons]
    exact ih _ (mem_bump_cents _ _ _ hacc (hts t (by simp)))
      (fun u hu => hts u (by simp [hu]))

theorem sum_map_round2_cents (l : List (String × ℚ)) (h : ∀ p ∈ l, Cents p.2) :
    ((l.map (fun p => (p.1, round2 p.2))).map Prod.snd).sum = (l.map Prod.snd).sum := by
  induction l with
  | nil => simp
  | cons p rest ih =>
    simp only [List.map_cons, List.sum_cons]
    rw [round2_cents (h p (by simp)), ih (fun q hq => h q (by simp [hq]))]

theorem cents_list_sum (l : List ℚ) (h : ∀ q ∈ l, Cents q) : Cents l.sum := by
  induction l with
  | nil => simpa using cents_zero
  | cons q rest ih =>
    simp only [List.sum_cons]
    exact cents_add (h q (by simp)) (ih (fun r hr => h r (by simp [hr])))

/-- C6 counterexample: two categories with amount 0.004 each.  The
total 0.008 rounds to 0.01, but each per-category total rounds to
0.00, so the sum of the `byCategory` values is 0 — the claimed
equality fails for these transactions. -/
theorem total_vs_byCategory_counterexample :
    totalExpenses [⟨0, ⟨2024, 1, 1⟩, "A", "x", 1 / 250⟩,
                   ⟨1, ⟨2024, 1, 1⟩, "B", "y", 1 / 250⟩] = 1 / 100 ∧
    ((categoryExpenses [⟨0, ⟨2024, 1, 1⟩, "A", "x", 1 / 250⟩,
                        ⟨1, ⟨2024, 1, 1⟩, "B", "y", 1 / 250⟩]).map Prod.snd).sum = 0 ∧
    (1 : ℚ) / 100 ≠ 0 := by
  refine ⟨?_, ?_, by norm_num⟩
  · norm_num [totalExpenses, round2, rat_floor_eq_floor]
  · have hAB : ("A" : String) ≠ "B" := by decide
    norm_num [categoryExpenses, categoryTotals, List.foldl, bump, hAB,
      round2, rat_floor_eq_floor]

/-- C6 amended: when every amount is a whole number of cents (as all
currency inputs are), `totalExpense` equals the sum of the
`byCategory` values.  For arbitrary amounts the per-category rounding
can differ from the total's rounding (see the counterexample). -/
theorem total_eq_sum_byCategory_of_cents (ts : List Transaction)
    (h : ∀ t ∈ ts, Cents t.amount) :
    totalExpenses ts = ((categoryExpenses ts).map Prod.snd).sum := by
  have hcents := categoryTotals_foldl_cents ts [] (by simp) h
  have hS : Cents ((ts.map Transaction.amount).sum) := by
    apply cents_list_sum
    intro q hq
    obtain ⟨t, ht, rfl⟩ := List.mem_map.mp hq
    exact h t ht
  calc totalExpenses ts = round2 ((ts.map Transaction.amount).sum) := by
        rw [totalExpenses, foldl_add_amount, zero_add]
    _ = (ts.map Transaction.amount).sum := round2_cents hS
    _ = ((categoryExpenses ts).map Prod.snd).sum := by
        rw [categoryExpenses, categoryTotals, sum_map_round2_cents _ hcents,
          categoryTotals_foldl_sum]
        simp

/-- Witness for the amended C6 at a concrete input: amounts 50.00 and
0.25 in two categories. -/
theorem total_eq_sum_byCategory_of_cents_witness :
    totalExpenses [⟨0, ⟨2024, 1, 1⟩, "Food", "a", 50⟩,
                   ⟨1, ⟨2024, 1, 1⟩, "Transportation", "b", 1 / 4⟩] =
      ((categoryExpenses [⟨0, ⟨2024, 1, 1⟩, "Food", "a", 50⟩,
                          ⟨1, ⟨2024, 1, 1⟩, "Transportation", "b", 1 / 4⟩]).map
        Prod.snd).sum :=
  total_eq_sum_byCategory_of_cents _ (by
    intro t ht
    simp only [List.mem_cons, List.not_mem_nil, or_false] at ht
    rcases ht with rfl | rfl
    · exact ⟨5000, by norm_num⟩
    · exact ⟨25, by norm_num⟩)

/-! ## C2: create's validation misses the finiteness check -/

/-- C2 (code bug evidence): the source validates the amount with
`isNaN(Number(formAmount))` only, so the non-finite parse `Infinity`
(input string `"Infinity"`, or an overflowing literal such as
`"1e999"`) passes validation and the transaction is appended with a
non-finite amount, where the claim demands `ValidationError` for any
amount that does not parse as a finite number.  For contrast, the
conjuncts also evaluate the checks the code does perform: a `NaN`
amount and a missing description are rejected with `ValidationError`
and no new state. -/
theorem create_accepts_infinite_amount :
    createTransaction ⟨[], 0⟩ ⟨some ⟨2024, 1, 2⟩, "Food", "Lunch",
        some JSNum.posInf⟩ =
      .ok (⟨[⟨0, ⟨2024, 1, 2⟩, "Food", "Lunch", JSNum.posInf⟩], 1⟩,
           ⟨0, ⟨2024, 1, 2⟩, "Food", "Lunch", JSNum.posInf⟩) ∧
    JSNum.posInf.isFinite = false ∧
    createTransaction ⟨[], 0⟩ ⟨some ⟨2024, 1, 2⟩, "Food", "Lunch",
        some JSNum.nan⟩ = .error .validationError ∧
    createTransaction ⟨[], 0⟩ ⟨some ⟨2024, 1, 2⟩, "Food", "",
        some (JSNum.finite 10)⟩ = .error .validationError := by
  refine ⟨?_, rfl, ?_, ?_⟩
  · simp [createTransaction]
  · simp [createTransaction]
  · simp [createTransaction]

/-! ## C3: update of a missing id fails, of a present id replaces fields -/

theorem update_absent (ts : List Transaction) (i : ℕ) (u : TxUpdates)
    (h : ∀ t ∈ ts, t.id ≠ i) : updateTransaction ts i u = none := by
  induction ts with
  | nil => rfl
  | cons t rest ih =>
    simp only [updateTransaction]
    rw [if_neg (h t (by simp))]
    rw [ih (fun x hx => h x (by simp [hx]))]

theorem update_found (l₁ l₂ : List Transaction) (t₀ : Transaction) (i : ℕ)
    (u : TxUpdates) (h₁ : ∀ t ∈ l₁, t.id ≠ i) (h₀ : t₀.id = i) :
    updateTransaction (l₁ ++ t₀ :: l₂) i u =
      some (l₁ ++ applyUpdates t₀ u :: l₂, applyUpdates t₀ u) := by
  induction l₁ with
  | nil => simp [updateTransaction, h₀]
  | cons t l ih =>
    have hne := h₁ t (by simp)
    simp [updateTransaction, hne, ih (fun x hx => h₁ x (by simp [hx]))]

/-- C3: `update(id, fields)` on a collection with no transaction of
that id returns `NotFoundError` (`none`) and the collection is left as
it was; on the first transaction carrying the id, its fields are
replaced by the update while its id is preserved. -/
theorem update_spec (ts l₁ l₂ : List Transaction) (t₀ : Transaction) (i : ℕ)
    (u : TxUpdates) :
    ((∀ t ∈ ts, t.id ≠ i) →
      updateTransaction ts i u = none ∧ listAfterUpdate ts i u = ts) ∧
    (ts = l₁ ++ t₀ :: l₂ → (∀ t ∈ l₁, t.id ≠ i) → t₀.id = i →
      updateTransaction ts i u =
        some (l₁ ++ applyUpdates t₀ u :: l₂, applyUpdates t₀ u) ∧
      (applyUpdates t₀ u).id = t₀.id) := by
  constructor
  · intro h
    refine ⟨update_absent ts i u h, ?_⟩
    simp [listAfterUpdate, update_absent ts i u h]
  · intro hts h₁ h₀
    subst hts
    exact ⟨update_found l₁ l₂ t₀ i u h₁ h₀, rfl⟩

/-- Witness for C3 at a concrete input: updating the description of
the transaction with id 1 replaces that field and keeps the id. -/
theorem update_spec_witness :
    updateTransaction
        [⟨0, ⟨2024, 1, 1⟩, "Food", "z", 5⟩, ⟨1, ⟨2024, 1, 2⟩, "Gas", "g", 7⟩] 1
        ⟨none, none, some "gg", none⟩ =
      some ([⟨0, ⟨2024, 1, 1⟩, "Food", "z", 5⟩] ++
              applyUpdates ⟨1, ⟨2024, 1, 2⟩, "Gas", "g", 7⟩
                ⟨none, none, some "gg", none⟩ :: [],
            applyUpdates ⟨1, ⟨2024, 1, 2⟩, "Gas", "g", 7⟩
              ⟨none, none, some "gg", none⟩) :=
  ((update_spec
      [⟨0, ⟨2024, 1, 1⟩, "Food", "z", 5⟩, ⟨1, ⟨2024, 1, 2⟩, "Gas", "g", 7⟩]
      [⟨0, ⟨2024, 1, 1⟩, "Food", "z", 5⟩] [] ⟨1, ⟨2024, 1, 2⟩, "Gas", "g", 7⟩ 1
      ⟨none, none, some "gg", none⟩).2 rfl
    (by
      intro t ht
      simp only [List.mem_cons, List.not_mem_nil, or_false] at ht
      subst ht
      decide)
    rfl).1

/-! ## C5: recent transactions are a stable descending sort prefix -/

theorem dateLe_refl (a : SDate) : dateLe a a = true := by
  simp [dateLe]

theorem dateLe_total (a b : SDate) : dateLe a b = true ∨ dateLe b a = true := by
  simp only [dateLe, decide_eq_true_eq]
  omega

theorem dateLe_trans {a b c : SDate} (h1 : dateLe a b = true)
    (h2 : dateLe b c = true) : dateLe a c = true := by
  simp only [dateLe, decide_eq_true_eq] at h1 h2 ⊢
  omega

theorem mem_insertDesc (x a : Transaction) (l : List Transaction) :
    a ∈ insertDesc x l ↔ a = x ∨ a ∈ l := by
  induction l with
  | nil => simp [insertDesc]
  | cons y l ih =>
    by_cases h : dateLe y.date x.date = true
    · simp [insertDesc, h]
    · simp only [insertDesc, h, if_false, Bool.false_eq_true, List.mem_cons, ih]
      tauto

theorem perm_insertDesc (x : Transaction) (l : List Transaction) :
    (insertDesc x l).Perm (x :: l) := by
  induction l with
  | nil => simp [insertDesc]
  | cons y l ih =>
    by_cases h : dateLe y.date x.date = true
    · simp [insertDesc, h]
    · simp only [insertDesc, h, Bool.false_eq_true, if_false]
      exact (ih.cons y).trans (List.Perm.swap x y l)

theorem sortDesc_perm (ts : List Transaction) : (sortDesc ts).Perm ts := by
  induction ts with
  | nil => simp [sortDesc]
  | cons t ts ih => exact (perm_insertDesc t (sortDesc ts)).trans (ih.cons t)

theorem pairwise_insertDesc (x : Transaction) (l : List Transaction)
    (h : l.Pairwise (fun a b => dateLe b.date a.date = true)) :
    (insertDesc x l).Pairwise (fun a b => dateLe b.date a.date = true) := by
  induction l with
  | nil => simp [insertDesc]
  | cons y l ih =>
    obtain ⟨hy, hl⟩ := List.pairwise_cons.mp h
    by_cases hxy : dateLe y.date x.date = true
    · simp only [insertDesc, hxy, if_true]
      refine List.Pairwise.cons ?_ h
      intro z hz
      rcases List.mem_cons.mp hz with rfl | hz
      · exact hxy
      · exact dateLe_trans (hy z hz) hxy
    · simp only [insertDesc, hxy, Bool.false_eq_true, if_false]
      refine List.Pairwise.cons ?_ (ih hl)
      intro z hz
      rcases (mem_insertDesc x z l).mp hz with rfl | hz
      · exact (dateLe_total y.date z.date).resolve_left hxy
      · exact hy z hz

theorem sortDesc_pairwise (ts : List Transaction) :
    (sortDesc ts).Pairwise (fun a b => dateLe b.date a.date = true) := by
  induction ts with
  | nil => simp [sortDesc]
  | cons t ts ih => exact pairwise_insertDesc t (sortDesc ts) ih

theorem filter_insertDesc_eq (x : Transaction) (l : List Transaction) (d : SDate)
    (hx : x.date = d) :
    (insertDesc x l).filter (fun t => decide (t.date = d)) =
      x :: l.filter (fun t => decide (t.date = d)) := by
  subst hx
  induction l with
  | nil => simp [insertDesc]
  | cons y l ih =>
    by_cases hxy : dateLe y.date x.date = true
    · simp [insertDesc, hxy, List.filter]
    · have hyd : ¬ y.date = x.date := by
        intro hy
        apply hxy
        rw [hy]
        exact dateLe_refl x.date
      simp [insertDesc, hxy, hyd, List.filter, ih]

theorem filter_insertDesc_ne (x : Transaction) (l : List Transaction) (d : SDate)
    (hx : ¬ x.date = d) :
    (insertDesc x l).filter (fun t => decide (t.date = d)) =
      l.filter (fun t => decide (t.date = d)) := by
  induction l with
  | nil => simp [insertDesc, hx]
  | cons y l ih =>
    by_cases hxy : dateLe y.date x.date = true
    · simp [insertDesc, hxy, hx, List.filter]
    · simp [insertDesc, hxy, List.filter, ih]

theorem sortDesc_stable (ts : List Transaction) (d : SDate) :
    (sortDesc ts).filter (fun t => decide (t.date = d)) =
      ts.filter (fun t => decide (t.date = d)) := by
  induction ts with
  | nil => simp [sortDesc]
  | cons t ts ih =>
    by_cases ht : t.date = d
    · rw [sortDesc, filter_insertDesc_eq t (sortDesc ts) d ht, ih]
      simp [List.filter, ht]
    · rw [sortDesc, filter_insertDesc_ne t (sortDesc ts) d ht, ih]
      simp [List.filter, ht]

/-- C5: `recent(transactions, n)` is the first `n` entries of a list
that is a permutation of the collection, sorted by date descending;
every returned transaction's date is at least every dropped one's;
and the sort is stable — for each date, the transactions carrying it
appear exactly as they do in the original collection order. -/
theorem recent_spec (ts : List Transaction) (n : ℕ) :
    (sortDesc ts).Perm ts ∧
    (sortDesc ts).Pairwise (fun a b => dateLe b.date a.date = true) ∧
    recentN ts n = (sortDesc ts).take n ∧
    (∀ x ∈ recentN ts n, ∀ y ∈ (sortDesc ts).drop n, dateLe y.date x.date = true) ∧
    (∀ d, (sortDesc ts).filter (fun t => decide (t.date = d)) =
      ts.filter (fun t => decide (t.date = d))) := by
  refine ⟨sortDesc_perm ts, sortDesc_pairwise ts, rfl, ?_, fun d => sortDesc_stable ts d⟩
  intro x hx y hy
  have h := sortDesc_pairwise ts
  rw [← List.take_append_drop n (sortDesc ts)] at h
  exact (List.pairwise_append.mp h).2.2 x (by simpa [recentN] using hx) y hy

/-- Witness for C5 at a concrete input: in the three-transaction
scenario, the Dinner transaction is kept by `recent(2)`, the Groceries
transaction is dropped, and Groceries is indeed no later than
Dinner. -/
theorem recent_spec_witness :
    dateLe (SDate.mk 2024 1 10) (SDate.mk 2024 2 1) = true :=
  (recent_spec [⟨0, ⟨2024, 1, 10⟩, "Food", "Groceries", 50⟩,
                ⟨1, ⟨2024, 1, 15⟩, "Transportation", "Gas", 25⟩,
                ⟨2, ⟨2024, 2, 1⟩, "Food", "Dinner", 100⟩] 2).2.2.2.1
    ⟨2, ⟨2024, 2, 1⟩, "Food", "Dinner", 100⟩
    (by norm_num [recentN, sortDesc, insertDesc, dateLe])
    ⟨0, ⟨2024, 1, 10⟩, "Food", "Groceries", 50⟩
    (by norm_num [sortDesc, insertDesc, dateLe])

/-! ## C1, C10: budget-vs-actual comparison rows -/

theorem addActual_cats (rows : List CompRow) (c : String) (a : ℚ) :
    (addActual rows c a).map CompRow.category =
      if c ∈ rows.map CompRow.category then rows.map CompRow.category
      else rows.map CompRow.category ++ [c] := by
  induction rows with
  | nil => simp [addActual]
  | cons r rest ih =>
    by_cases h : r.category = c
    · simp [addActual, h]
    · simp only [addActual, h, Bool.false_eq_true, if_false, List.map_cons, ih,
        List.mem_cons]
      by_cases hc : c ∈ rest.map CompRow.category
      · rw [if_pos hc, if_pos (Or.inr hc)]
      · rw [if_neg hc, if_neg ?_, List.cons_append]
        intro hor
        rcases hor with he | hmem
        · exact h he.symm
        · exact hc hmem

theorem dedupFirstAux_congr (s₁ s₂ : List String)
    (h : ∀ x, x ∈ s₁ ↔ x ∈ s₂) (l : List String) :
    dedupFirstAux s₁ l = dedupFirstAux s₂ l := by
  induction l generalizing s₁ s₂ with
  | nil => rfl
  | cons c cs ih =>
    simp only [dedupFirstAux]
    by_cases hc : c ∈ s₁
    · rw [if_pos hc, if_pos ((h c).mp hc)]
      exact ih s₁ s₂ h
    · rw [if_neg hc, if_neg (fun hh => hc ((h c).mpr hh))]
      rw [ih (c :: s₁) (c :: s₂) (by intro x; simp [h x])]

theorem foldl_addActual_cats (ts : List Transaction) (rows : List CompRow) :
    ((ts.foldl (fun rows t => addActual rows t.category t.amount) rows).map
        CompRow.category) =
      rows.map CompRow.category ++
        dedupFirstAux (rows.map CompRow.category) (ts.map Transaction.category) := by
  induction ts generalizing rows with
  | nil => simp [dedupFirstAux]
  | cons t ts ih =>
    simp only [List.foldl_cons, List.map_cons, dedupFirstAux]
    by_cases hmem : t.category ∈ rows.map CompRow.category
    · rw [if_pos hmem, ih, addActual_cats, if_pos hmem]
    · rw [if_neg hmem, ih, addActual_cats, if_neg hmem]
      rw [dedupFirstAux_congr (rows.map CompRow.category ++ [t.category])
        (t.category :: rows.map CompRow.category)
        (by intro x; simp [or_comm]) (ts.map Transaction.category)]
      simp

theorem nodup_append_dedupFirstAux (seen l : List String) (h : seen.Nodup) :
    (seen ++ dedupFirstAux seen l).Nodup := by
  induction l generalizing seen with
  | nil => simpa [dedupFirstAux]
  | cons c cs ih =>
    simp only [dedupFirstAux]
    by_cases hc : c ∈ seen
    · rw [if_pos hc]
      exact ih seen h
    · rw [if_neg hc]
      have hx := ih (c :: seen) (List.nodup_cons.mpr ⟨hc, h⟩)
      exact (List.perm_middle.nodup_iff).mpr hx

theorem mem_dedupFirstAux (seen l : List String) (x : String) :
    x ∈ dedupFirstAux seen l ↔ x ∈ l ∧ x ∉ seen := by
  induction l generalizing seen with
  | nil => simp [dedupFirstAux]
  | cons c cs ih =>
    simp only [dedupFirstAux]
    by_cases hc : c ∈ seen
    · rw [if_pos hc, ih]
      constructor
      · rintro ⟨h1, h2⟩
        exact ⟨List.mem_cons.mpr (Or.inr h1), h2⟩
      · rintro ⟨h1, h2⟩
        rcases List.mem_cons.mp h1 with rfl | h1
        · exact absurd hc h2
        · exact ⟨h1, h2⟩
    · rw [if_neg hc]
      by_cases hx : x = c
      · subst hx
        simp [hc]
      · simp only [List.mem_cons, hx, false_or, ih (x :: seen)]
        simp [ih, hx]

theorem budgetComparison_cats (ts : List Transaction) (bs : List Budget) :
    (budgetComparison ts bs).map CompRow.category =
      (ts.foldl (fun rows t => addActual rows t.category t.amount)
        (bs.map (fun b => CompRow.mk b.category b.amount 0))).map
        CompRow.category := by
  show (List.map _ _).map _ = _
  rw [List.map_map]
  rfl

/-- C10: the rows of `budgetComparison` come in a fixed order — first
one row per budget entry, in budget-list order (`dedupFirstAux seen l`
keeps the first occurrence of each element of `l` not in `seen`, in
order), then one row per category that occurs in the transactions
but not among the budgets, ordered by first occurrence. -/
theorem budgetComparison_row_order (ts : List Transaction) (bs : List Budget) :
    (budgetComparison ts bs).map CompRow.category =
      bs.map Budget.category ++
        dedupFirstAux (bs.map Budget.category) (ts.map Transaction.category) := by
  have hinitcats : (bs.map (fun b => CompRow.mk b.category b.amount 0)).map
      CompRow.category = bs.map Budget.category := by
    rw [List.map_map]
    rfl
  rw [budgetComparison_cats, foldl_addActual_cats, hinitcats]

theorem rowLookup_addActual_same (rows : List CompRow) (c : String) (a : ℚ) :
    rowLookup (addActual rows c a) c =
      some (match rowLookup rows c with
            | some r => { r with actual := r.actual + a }
            | none => ⟨c, 0, a⟩) := by
  induction rows with
  | nil => simp [addActual, rowLookup]
  | cons r rest ih =>
    by_cases h : r.category = c
    · simp [addActual, h, rowLookup, List.find?_cons_of_pos, h]
    · simp only [addActual, h, Bool.false_eq_true, if_false]
      rw [rowLookup, List.find?_cons_of_neg _ (by simp [h]),
        rowLookup, List.find?_cons_of_neg _ (by simp [h])] at *
      exact ih

theorem rowLookup_addActual_other (rows : List CompRow) (c : String) (a : ℚ)
    (c' : String) (h : c' ≠ c) :
    rowLookup (addActual rows c a) c' = rowLookup rows c' := by
  have hcc : ¬ c = c' := fun hh => h hh.symm
  induction rows with
  | nil =>
    simp [addActual, rowLookup, List.find?, hcc]
  | cons r rest ih =>
    by_cases hr : r.category = c
    · have hrc : ¬ r.category = c' := by
        rw [hr]
        exact hcc
      simp only [addActual, hr, if_true]
      rw [rowLookup, List.find?_cons_of_neg _ (by simp [hrc, hcc]),
        rowLookup, List.find?_cons_of_neg _ (by simp [hrc, hcc])]
    · simp only [addActual, hr, Bool.false_eq_true, if_false]
      by_cases hc' : r.category = c'
      · rw [rowLookup, List.find?_cons_of_pos _ (by simp [hc']),
          rowLookup, List.find?_cons_of_pos _ (by simp [hc'])]
      · rw [rowLookup, List.find?_cons_of_neg _ (by simp [hc']),
          rowLookup, List.find?_cons_of_neg _ (by simp [hc'])]
        exact ih

theorem catSum_cons (t : Transaction) (ts : List Transaction) (c : String) :
    catSum (t :: ts) c =
      (if t.category = c then t.amount else 0) + catSum ts c := by
  by_cases h : t.category = c
  · simp [catSum, List.filter, h]
  · simp [catSum, List.filter, h]

theorem rowLookup_foldl (ts : List Transaction) (rows : List CompRow) (c : String) :
    rowLookup (ts.foldl (fun rows t => addActual rows t.category t.amount) rows) c =
      match rowLookup rows c with
      | some r => some { r with actual := r.actual + catSum ts c }
      | none => if c ∈ ts.map Transaction.category then some ⟨c, 0, catSum ts c⟩
                else none := by
  induction ts generalizing rows with
  | nil =>
    cases h : rowLookup rows c <;> simp [h, catSum]
  | cons t ts ih =>
    simp only [List.foldl_cons]
    rw [ih]
    by_cases hc : c = t.category
    · subst hc
      rw [rowLookup_addActual_same]
      have hcs : catSum (t :: ts) t.category = t.amount + catSum ts t.category := by
        rw [catSum_cons, if_pos rfl]
      cases h : rowLookup rows t.category with
      | some r =>
        simp only [h, hcs]
        simp [add_assoc]
      | none =>
        simp only [h, hcs, List.map_cons, List.mem_cons]
        simp
    · rw [rowLookup_addActual_other _ _ _ _ hc]
      have hne : ¬ t.category = c := fun hh => hc hh.symm
      have hcs : catSum (t :: ts) c = catSum ts c := by
        rw [catSum_cons, if_neg hne, zero_add]
      cases h : rowLookup rows c with
      | some r => simp [h, hcs]
      | none => simp [h, hcs, List.mem_cons, hc]

theorem rowLookup_mem_nodup (rows : List CompRow) (r : CompRow)
    (hnd : (rows.map CompRow.category).Nodup) (hr : r ∈ rows) :
    rowLookup rows r.category = some r := by
  induction rows with
  | nil => cases hr
  | cons r' rest ih =>
    rcases List.mem_cons.mp hr with rfl | hmem
    · rw [rowLookup, List.find?_cons_of_pos _ (by simp)]
    · have hnd' : r'.category ∉ rest.map CompRow.category ∧
          (rest.map CompRow.category).Nodup := by
        rw [List.map_cons, List.nodup_cons] at hnd
        exact hnd
      have hne : ¬ r'.category = r.category := by
        intro he
        apply hnd'.1
        rw [he]
        exact List.mem_map.mpr ⟨r, hmem, rfl⟩
      rw [rowLookup, List.find?_cons_of_neg _ (by simp [hne])]
      exact ih hnd'.2 hmem

theorem rowLookup_init (bs : List Budget) (c : String) :
    rowLookup (bs.map (fun b => CompRow.mk b.category b.amount 0)) c =
      (bs.find? (fun b => b.category = c)).map
        (fun b => CompRow.mk b.category b.amount 0) := by
  rw [rowLookup, List.find?_map]
  rfl

theorem rowLookup_comparison (ts : List Transaction) (bs : List Budget) (c : String) :
    rowLookup (ts.foldl (fun rows t => addActual rows t.category t.amount)
        (bs.map (fun b => CompRow.mk b.category b.amount 0))) c = none ∨
    rowLookup (ts.foldl (fun rows t => addActual rows t.category t.amount)
        (bs.map (fun b => CompRow.mk b.category b.amount 0))) c =
      some ⟨c, budgetLookup bs c, catSum ts c⟩ := by
  rw [rowLookup_foldl, rowLookup_init]
  cases hf : bs.find? (fun b => b.category = c) with
  | none =>
    by_cases hmem : c ∈ ts.map Transaction.category
    · right
      simp [budgetLookup, hf, hmem]
    · left
      simp [hmem]
  | some b =>
    have hbc : b.category = c := by simpa using List.find?_some hf
    right
    simp [budgetLookup, hf, hbc]

/-- C1: for any transactions and any valid budget collection (no two
budgets share a category, the spec's invariant), `budgetComparison`
has no duplicate category rows, its categories are exactly the union
of budget and transaction categories, and each row carries the
matching budget amount (or 0) and the rounded sum of the category's
transaction amounts (0 if none). -/
theorem budgetComparison_spec (ts : List Transaction) (bs : List Budget)
    (hb : (bs.map Budget.category).Nodup) :
    ((budgetComparison ts bs).map CompRow.category).Nodup ∧
    (∀ c, c ∈ (budgetComparison ts bs).map CompRow.category ↔
      c ∈ bs.map Budget.category ∨ c ∈ ts.map Transaction.category) ∧
    (∀ r ∈ budgetComparison ts bs,
      r.budgeted = budgetLookup bs r.category ∧
      r.actual = round2 (catSum ts r.category)) := by
  have hinitcats : (bs.map (fun b => CompRow.mk b.category b.amount 0)).map
      CompRow.category = bs.map Budget.category := by
    rw [List.map_map]
    rfl
  have hcats : (budgetComparison ts bs).map CompRow.category =
      bs.map Budget.category ++
        dedupFirstAux (bs.map Budget.category) (ts.map Transaction.category) := by
    rw [budgetComparison_cats, foldl_addActual_cats, hinitcats]
  refine ⟨?_, ?_, ?_⟩
  · rw [hcats]
    exact nodup_append_dedupFirstAux _ _ hb
  · intro c
    rw [hcats, List.mem_append, mem_dedupFirstAux]
    constructor
    · rintro (h | ⟨h1, h2⟩)
      · exact Or.inl h
      · exact Or.inr h1
    · rintro (h | h)
      · exact Or.inl h
      · by_cases hbmem : c ∈ bs.map Budget.category
        · exact Or.inl hbmem
        · exact Or.inr ⟨h, hbmem⟩
  · intro r hr
    have hr' : r ∈ (ts.foldl (fun rows t => addActual rows t.category t.amount)
        (bs.map (fun b => CompRow.mk b.category b.amount 0))).map
        (fun r => { r with actual := round2 r.actual }) := hr
    obtain ⟨r₀, hr₀, rfl⟩ := List.mem_map.mp hr'
    have hSnodup : ((ts.foldl (fun rows t => addActual rows t.category t.amount)
        (bs.map (fun b => CompRow.mk b.category b.amount 0))).map
        CompRow.category).Nodup := by
      rw [foldl_addActual_cats, hinitcats]
      exact nodup_append_dedupFirstAux _ _ hb
    have hlook := rowLookup_mem_nodup _ r₀ hSnodup hr₀
    rcases rowLookup_comparison ts bs r₀.category with hnone | hsome
    · rw [hlook] at hnone
      exact absurd hnone (by simp)
    · rw [hlook] at hsome
      have he := Option.some.inj hsome
      refine ⟨?_, ?_⟩
      · exact congrArg CompRow.budgeted he
      · exact congrArg (fun z => round2 z.actual) he

/-- Witness for C1 at a concrete input: with the scenario transactions
and the single budget {Food: 120}, Transportation appears among the
comparison categories exactly because it appears among the transaction
categories. -/
theorem budgetComparison_spec_witness :
    ("Transportation" ∈ (budgetComparison
        [⟨0, ⟨2024, 1, 10⟩, "Food", "Groceries", 50⟩,
         ⟨1, ⟨2024, 1, 15⟩, "Transportation", "Gas", 25⟩,
         ⟨2, ⟨2024, 2, 1⟩, "Food", "Dinner", 100⟩]
        [⟨"Food", 120⟩]).map CompRow.category ↔
      "Transportation" ∈ ([⟨"Food", 120⟩] : List Budget).map Budget.category ∨
      "Transportation" ∈
        ([⟨0, ⟨2024, 1, 10⟩, "Food", "Groceries", 50⟩,
          ⟨1, ⟨2024, 1, 15⟩, "Transportation", "Gas", 25⟩,
          ⟨2, ⟨2024, 2, 1⟩, "Food", "Dinner", 100⟩] :
          List Transaction).map Transaction.category) :=
  (budgetComparison_spec
    [⟨0, ⟨2024, 1, 10⟩, "Food", "Groceries", 50⟩,
     ⟨1, ⟨2024, 1, 15⟩, "Transportation", "Gas", 25⟩,
     ⟨2, ⟨2024, 2, 1⟩, "Food", "Dinner", 100⟩]
    [⟨"Food", 120⟩] (by simp)).2.1 "Transportation"

/-! ## C7: persistence round-trip -/

theorem padDigits_lt (k n : ℕ) : ∀ d ∈ padDigits k n, d < 10 := by
  induction k generalizing n with
  | zero => simp [padDigits]
  | succ k ih =>
    intro d hd
    rw [padDigits, List.mem_append] at hd
    rcases hd with hd | hd
    · exact ih (n / 10) d hd
    · simp only [List.mem_singleton] at hd
      subst hd
      omega

theorem digitsVal_padDigits (k n : ℕ) (h : n < 10 ^ k) :
    digitsVal (padDigits k n) = n := by
  induction k generalizing n with
  | zero =>
    simp only [pow_zero, Nat.lt_one_iff] at h
    simp [padDigits, digitsVal, h]
  | succ k ih =>
    have hdiv : n / 10 < 10 ^ k := by
      rw [Nat.div_lt_iff_lt_mul (by norm_num)]
      calc n < 10 ^ (k + 1) := h
        _ = 10 ^ k * 10 := by ring
    rw [padDigits, digitsVal, List.foldl_append]
    have hfold : List.foldl (fun a d => 10 * a + d) 0 (padDigits k (n / 10)) = n / 10 :=
      ih (n / 10) hdiv
    rw [hfold]
    simp only [List.foldl_cons, List.foldl_nil]
    omega

theorem charToDigit_digitChar (d : ℕ) (h : d < 10) :
    charToDigit (digitChar d) = some d := by
  interval_cases d <;> decide

theorem charsToDigits_map (ds : List ℕ) (h : ∀ d ∈ ds, d < 10) :
    charsToDigits (ds.map digitChar) = some ds := by
  induction ds with
  | nil => rfl
  | cons d ds ih =>
    simp only [List.map_cons, charsToDigits]
    rw [charToDigit_digitChar d (h d (by simp)),
      ih (fun x hx => h x (by simp [hx]))]

theorem parseField_pad (k n : ℕ) (h : n < 10 ^ k) :
    parseField ((padDigits k n).map digitChar) = some n := by
  rw [parseField, charsToDigits_map _ (padDigits_lt k n)]
  simp [digitsVal_padDigits k n h]

theorem padDigits_two (n : ℕ) : padDigits 2 n = [n / 10 % 10, n % 10] := by
  simp [padDigits, Nat.div_div_eq_div_mul]

theorem padDigits_four (n : ℕ) :
    padDigits 4 n = [n / 10 / 10 / 10 % 10, n / 10 / 10 % 10, n / 10 % 10, n % 10] := by
  simp [padDigits]

theorem toList_isoDate (d : SDate) :
    (isoDate d).toList =
      (padDigits 4 d.year).map digitChar ++ '-' ::
      ((padDigits 2 d.month).map digitChar ++ '-' ::
       (padDigits 2 d.day).map digitChar) := by
  simp [isoDate, padStr]

theorem qToNat_natCast (n : ℕ) : qToNat (n : ℚ) = some n := by
  simp [qToNat]

theorem parseIsoDate_isoDate (d : SDate) (hv : ValidDate d) :
    parseIsoDate (isoDate d) = some d := by
  obtain ⟨hy, hm, hd⟩ := hv
  have h4 := parseField_pad 4 d.year (by simpa using hy)
  have h2m := parseField_pad 2 d.month (by simpa using hm)
  have h2d := parseField_pad 2 d.day (by simpa using hd)
  rw [padDigits_four] at h4
  rw [padDigits_two] at h2m h2d
  simp only [List.map_cons, List.map_nil] at h4 h2m h2d
  have hl : (isoDate d).toList =
      [digitChar (d.year / 10 / 10 / 10 % 10), digitChar (d.year / 10 / 10 % 10),
       digitChar (d.year / 10 % 10), digitChar (d.year % 10), '-',
       digitChar (d.month / 10 % 10), digitChar (d.month % 10), '-',
       digitChar (d.day / 10 % 10), digitChar (d.day % 10)] := by
    rw [toList_isoDate, padDigits_four, padDigits_two, padDigits_two]
    simp
  rw [parseIsoDate, hl]
  simp [h4, h2m, h2d]

theorem revive_serialize (t : Transaction) (hv : ValidDate t.date) :
    reviveTransaction (serializeTransaction t) = some t := by
  simp only [serializeTransaction, reviveTransaction]
  rw [qToNat_natCast, parseIsoDate_isoDate t.date hv]

theorem reviveList_map (ts : List Transaction) (hd : ∀ t ∈ ts, ValidDate t.date) :
    reviveList (ts.map serializeTransaction) = some ts := by
  induction ts with
  | nil => rfl
  | cons t ts ih =>
    simp only [List.map_cons, reviveList]
    rw [revive_serialize t (hd t (by simp)),
      ih (fun u hu => hd u (by simp [hu]))]

/-- C7: serializing a non-empty collection of transactions with valid
dates (the `yyyy-MM-dd` fields fit their fixed widths) and reviving it
with the field-aware reviver yields the original collection, dates
included — in particular, a `description` that looks like a date comes
back as the very same string, because only the `date` key is
date-parsed. -/
theorem persistence_roundtrip (ts : List Transaction) (_hne : ts ≠ [])
    (hd : ∀ t ∈ ts, ValidDate t.date) :
    reviveAll (serializeAll ts) = some ts := by
  rw [serializeAll, reviveAll]
  exact reviveList_map ts hd

/-- Witness for C7 at a concrete input: a transaction whose
description is the date-like string "2024-01-15" round-trips
unchanged. -/
theorem persistence_roundtrip_witness :
    reviveAll (serializeAll [⟨0, ⟨2024, 1, 15⟩, "Food", "2024-01-15", 50⟩]) =
      some [⟨0, ⟨2024, 1, 15⟩, "Food", "2024-01-15", 50⟩] :=
  persistence_roundtrip [⟨0, ⟨2024, 1, 15⟩, "Food", "2024-01-15", 50⟩]
    (by simp)
    (by
      intro t ht
      simp only [List.mem_cons, List.not_mem_nil, or_false] at ht
      subst ht
      exact ⟨by norm_num, by norm_num, by norm_num⟩)
